import Mathlib

/-!
The view type `polly::basic_string_view`.

A shallow embedding of `stubs/strings/string_view.h`.

* Memory is a map from addresses to raw unit values; a pointer is an address
  and the null pointer is address `0`.
* `size_type` is the 64-bit `std::size_t`; sizes and positions are natural
  numbers and `npos` is `2 ^ 64 - 1`.
* A member function that can throw returns `Except Exception _`.
* A member function that writes to memory takes the memory and returns the
  memory it leaves behind.
* A member function guarded by `POLLY_CONST_ASSERT` takes the build
  configuration and returns `Except Abort _`; its `size_type` subtraction
  wraps around modulo `2 ^ 64`.
-/

namespace polly

/-- Raw memory: the unit stored at every address. -/
abbrev Mem := Nat → Nat

/-- Memory after storing the unit `x` at address `a`. -/
def Mem.store (m : Mem) (a x : Nat) : Mem :=
  fun b => if b = a then x else m b

/-- Bit width of `size_type` (`std::size_t`). -/
def SIZE_BITS : Nat := 64

/-- Number of values of `size_type`. -/
def SIZE_MOD : Nat := 2 ^ SIZE_BITS

/-- The exceptions the view can raise: the out-of-range failure of the checked
members, and the `std::length_error` of the owning string's constructor. -/
inductive Exception where
  | OutOfRange (what : String)
  | LengthError
  deriving DecidableEq, Repr

/-- Modelled from the spec: `polly::ThrowStdOutOfRange` of
`stubs/base/exception.h`, which is not among the sources. It raises the
recoverable failure of kind OutOfRange carrying the operation name. -/
def ThrowStdOutOfRange {α : Type} (what : String) : Except Exception α :=
  Except.error (Exception.OutOfRange what)

/-- Modelled from the spec: `POLLY_EXPECT_TRUE` of `stubs/base/attributes.h`,
a branch-prediction hint that leaves the condition as it is. -/
def POLLY_EXPECT_TRUE (c : Bool) : Bool := c

/-- Modelled from the spec: `POLLY_EXPECT_FALSE` of `stubs/base/attributes.h`,
a branch-prediction hint that leaves the condition as it is. -/
def POLLY_EXPECT_FALSE (c : Bool) : Bool := c

namespace traits_type

/-- Modelled from the spec: the unit-traits `compare` (the standard library's
`std::char_traits<Char>::compare`): the raw unit-wise comparison of the `n`
units at `s1` with the `n` units at `s2`. It is zero when all of them agree
and has the sign of the difference of the first pair that does not. -/
def compare (m : Mem) (s1 s2 : Nat) : Nat → Int
  | 0 => 0
  | n + 1 =>
    if m s1 = m s2 then compare m (s1 + 1) (s2 + 1) n
    else (m s1 : Int) - (m s2 : Int)

/-- Modelled from the spec: the unit-traits `copy` (the standard library's
`std::char_traits<Char>::copy`): stores the `n` units at `src` to `dst`, one
after the other from the first. -/
def copy (m : Mem) (dst src : Nat) : Nat → Mem
  | 0 => m
  | n + 1 => copy (m.store dst (m src)) (dst + 1) (src + 1) n

end traits_type

/-- The view: `ptr_` is the address of the first unit, `len_` the number of
units. -/
structure basic_string_view where
  ptr_ : Nat
  len_ : Nat
  deriving DecidableEq, Repr

/-- The instantiation `basic_string_view<char, std::char_traits<char>>`. -/
abbrev string_view := basic_string_view

namespace basic_string_view

/-- The constant `npos = static_cast<size_type>(-1)`. -/
def npos : Nat := SIZE_MOD - 1

/-- The constant `kMaxSize = std::numeric_limits<difference_type>::max()`. -/
def kMaxSize : Nat := 2 ^ (SIZE_BITS - 1) - 1

/-- The constructor `basic_string_view()`. -/
def default : basic_string_view := ⟨0, 0⟩

/-- The constructor `basic_string_view(const Char* s, size_t n)`. -/
def mk_ptr_len (s n : Nat) : basic_string_view := ⟨s, n⟩

/-- The accessor `data()`. -/
def data (self : basic_string_view) : Nat := self.ptr_

/-- The accessor `size()`. -/
def size (self : basic_string_view) : Nat := self.len_

/-- The accessor `length()`. -/
def length (self : basic_string_view) : Nat := self.size

/-- The accessor `max_size()`. -/
def max_size (_self : basic_string_view) : Nat := kMaxSize

/-- The accessor `empty()`. -/
def empty (self : basic_string_view) : Bool := self.len_ == 0

/-- The unit `ptr_[i]` of the view in memory `m`. -/
def unit (self : basic_string_view) (m : Mem) (i : Nat) : Nat :=
  m (self.ptr_ + i)

/-- The member `at(i)`. -/
def at_ (self : basic_string_view) (m : Mem) (i : Nat) : Except Exception Nat :=
  if POLLY_EXPECT_TRUE (decide (i < self.size)) then Except.ok (m (self.ptr_ + i))
  else (ThrowStdOutOfRange "polly::string_view::at").bind
    (fun (_ : Unit) => Except.ok (m (self.ptr_ + i)))

/-- The member `substr(pos, n)`. -/
def substr (self : basic_string_view) (pos : Nat) (n : Nat) :
    Except Exception basic_string_view :=
  if POLLY_EXPECT_FALSE (decide (pos > self.len_)) then
    (ThrowStdOutOfRange "polly::string_view::substr").bind
      (fun (_ : Unit) => Except.ok default)
  else Except.ok (mk_ptr_len (self.ptr_ + pos) (min n (self.len_ - pos)))

/-- The private helper `CompareHelper(a, b, r)`. -/
def CompareHelper (a b : Nat) (r : Int) : Int :=
  if r = 0 then (if a > b then 1 else 0) - (if a < b then 1 else 0)
  else (if r < 0 then -1 else 1)

/-- The member `compare(other)`. -/
def compare (self : basic_string_view) (m : Mem) (other : basic_string_view) : Int :=
  CompareHelper self.len_ other.len_
    (if min self.len_ other.len_ = 0 then 0
     else traits_type.compare m self.ptr_ other.ptr_ (min self.len_ other.len_))

end basic_string_view

/-- The free `operator==`. -/
def operator_eq (m : Mem) (a b : string_view) : Bool := decide (a.compare m b = 0)

/-- The free `operator!=`. -/
def operator_ne (m : Mem) (a b : string_view) : Bool := !(operator_eq m a b)

/-- The free `operator<`. -/
def operator_lt (m : Mem) (a b : string_view) : Bool := decide (a.compare m b < 0)

/-- The free `operator>`. -/
def operator_gt (m : Mem) (a b : string_view) : Bool := operator_lt m b a

/-- The free `operator<=`. -/
def operator_le (m : Mem) (a b : string_view) : Bool := !(operator_lt m b a)

/-- The free `operator>=`. -/
def operator_ge (m : Mem) (a b : string_view) : Bool := !(operator_lt m a b)

namespace basic_string_view

/-- What a call of `copy` leaves behind: the value returned or the exception
raised, the view it was called on, and memory. -/
structure copy_result where
  ret : Except Exception Nat
  self : basic_string_view
  mem : Mem

/-- The member `copy(buf, n, pos)`. -/
def copy (self : basic_string_view) (m : Mem) (buf n : Nat) (pos : Nat) : copy_result :=
  if POLLY_EXPECT_FALSE (decide (pos > self.len_)) then
    ⟨ThrowStdOutOfRange "polly::string_view::copy", self, m⟩
  else
    let n1 := min (self.len_ - pos) n
    if n1 > 0 then ⟨Except.ok n1, self, traits_type.copy m buf (self.ptr_ + pos) n1⟩
    else ⟨Except.ok n1, self, m⟩

/-- Modelled from the spec: the scan of `find(v, pos)`, whose body is not among
the sources. A direct window comparison: the start positions `i`, `i + 1`, ...
are tried for as long as the window of `v.size()` units fits below `size()`;
the first start at which the window equals `v` is returned, and the sentinel
when the window no longer fits. `fuel` bounds the number of starts tried. -/
def find_from (self : basic_string_view) (m : Mem) (v : basic_string_view) (i : Nat) :
    Nat → Nat
  | 0 => npos
  | fuel + 1 =>
    if i + v.len_ ≤ self.len_ then
      if traits_type.compare m (self.ptr_ + i) v.ptr_ v.len_ = 0 then i
      else find_from self m v (i + 1) fuel
    else npos

/-- Modelled from the spec: the member `find(v, pos)`, declared in the header
and defined in a file that is not among the sources. The first index at or
after `pos` at which `v` occurs as a contiguous sub-window; the sentinel when
`pos > size()` or when the remaining window is too short to contain `v`; an
empty `v` is found at `min(pos, size())`. -/
def find (self : basic_string_view) (m : Mem) (v : basic_string_view) (pos : Nat) : Nat :=
  if pos > self.len_ then npos
  else if v.len_ = 0 then min pos self.len_
  else find_from self m v pos (self.len_ - pos + 1)

/-- The pattern `p` occurs in `self` at index `i`: the window of `p.size()`
units starting at `i` lies inside the view and holds the units of `p`. -/
def occurs_at (self : basic_string_view) (m : Mem) (p : basic_string_view) (i : Nat) : Prop :=
  i + p.size ≤ self.size ∧ ∀ j, j < p.size → self.unit m (i + j) = p.unit m j

end basic_string_view

/-- The units stored at the `n` addresses from `p` on. -/
def units_from (m : Mem) (p : Nat) : Nat → List Nat
  | 0 => []
  | n + 1 => m p :: units_from m (p + 1) n

/-- The three-way lexicographic order of two unit sequences: the first pair of
units that differ decides; if none does, the shorter sequence is the lesser. -/
def lex3 : List Nat → List Nat → Int
  | [], [] => 0
  | [], _ :: _ => -1
  | _ :: _, [] => 1
  | x :: xs, y :: ys => if x < y then -1 else if y < x then 1 else lex3 xs ys

/-- A memory holding the units of `xs` from address `base` on, zero elsewhere. -/
def Mem.ofList (base : Nat) (xs : List Nat) : Mem :=
  fun a => if a < base then 0 else xs.getD (a - base) 0

namespace traits_type

/-- Modelled from the spec: the scan of the unit-traits `length`: the units
from `s` on are read until the terminator, the unit of value 0, and the number
of units before it is returned. `fuel` bounds the number of units read; the
result is `none` when no terminator is among them. -/
def length_scan (m : Mem) (s : Nat) : Nat → Option Nat
  | 0 => none
  | fuel + 1 =>
    if m s = 0 then some 0 else (length_scan m (s + 1) fuel).map (fun k => k + 1)

/-- Modelled from the spec: the unit-traits `length` (the standard library's
`std::char_traits<Char>::length`), the scan to the terminator. The scan reads
at most as many units as `size_type` has values. -/
def length (m : Mem) (s : Nat) : Option Nat := length_scan m s SIZE_MOD

end traits_type

/-- The build configuration: `ndebug` when `NDEBUG` is defined, `debug`
otherwise. -/
inductive Build where
  | debug
  | ndebug
  deriving DecidableEq, Repr

/-- Termination of the process by the failed `assert` of `POLLY_CONST_ASSERT`;
`exp` is the text of the asserted expression. -/
inductive Abort where
  | assert_failed (exp : String)
  deriving DecidableEq, Repr

/-- The assertion of `stubs/base/check.h`: with `NDEBUG` the expression is not
evaluated and nothing happens; otherwise a false expression runs
`assert(false && #exp)`. -/
def POLLY_CONST_ASSERT (b : Build) (exp : Bool) (text : String) : Except Abort Unit :=
  match b with
  | Build.ndebug => Except.ok ()
  | Build.debug =>
    if POLLY_EXPECT_TRUE exp then Except.ok () else Except.error (Abort.assert_failed text)

/-- The difference `a - b` of two `size_type` values, which wraps around. -/
def size_sub (a b : Nat) : Nat := (a + (SIZE_MOD - b % SIZE_MOD)) % SIZE_MOD

/-- Modelled from the spec: an owning string (`std::basic_string`), which
exposes the address `data_` of its storage and its size `size_`; its units are
those stored in memory from `data_` on. -/
structure std_basic_string where
  data_ : Nat
  size_ : Nat
  deriving DecidableEq, Repr

/-- The units of an owning string. -/
def std_basic_string.units (s : std_basic_string) (m : Mem) : List Nat :=
  units_from m s.data_ s.size_

/-- Modelled from the spec: the constructor of the owning string from a pointer
and a count (the standard library's `std::basic_string(const Char*, size_type)`),
which materializes a copy of the `n` units at `s`; the result is given by its
units. The library raises `std::length_error` when `n` is above the
`max_size()` of the owning string, a constant of the library that is taken as
the parameter `smax`. -/
def std_basic_string.mk_ptr_len (m : Mem) (smax : Nat) (s n : Nat) :
    Except Exception (List Nat) :=
  if n > smax then Except.error Exception.LengthError
  else Except.ok (units_from m s n)

namespace basic_string_view

/-- The constructor `basic_string_view(const_pointer s)`; `none` when the scan
for the terminator does not end. -/
def mk_cstr (m : Mem) (s : Nat) : Option basic_string_view :=
  (if s ≠ 0 then traits_type.length m s else some 0).map (fun n => ⟨s, n⟩)

/-- The constructor `basic_string_view(const std::basic_string&)`. -/
def mk_basic_string (s : std_basic_string) : basic_string_view :=
  mk_ptr_len s.data_ s.size_

/-- The member `operator[](i)`. -/
def index (self : basic_string_view) (b : Build) (m : Mem) (i : Nat) : Except Abort Nat :=
  (POLLY_CONST_ASSERT b (decide (i < self.size)) "i < size()").bind
    (fun _ => Except.ok (m (self.ptr_ + i)))

/-- The member `front()`. -/
def front (self : basic_string_view) (b : Build) (m : Mem) : Except Abort Nat :=
  (POLLY_CONST_ASSERT b (!self.empty) "!empty()").bind
    (fun _ => Except.ok (m (self.ptr_ + 0)))

/-- The member `back()`. -/
def back (self : basic_string_view) (b : Build) (m : Mem) : Except Abort Nat :=
  (POLLY_CONST_ASSERT b (!self.empty) "!empty()").bind
    (fun _ => Except.ok (m (self.ptr_ + size_sub self.size 1)))

/-- The member `remove_prefix(n)`; the result is the view after the call. -/
def remove_prefix (self : basic_string_view) (b : Build) (n : Nat) :
    Except Abort basic_string_view :=
  (POLLY_CONST_ASSERT b (decide (n ≤ self.len_)) "n <= len_").bind
    (fun _ => Except.ok ⟨self.ptr_ + n, size_sub self.len_ n⟩)

/-- The member `remove_suffix(n)`; the result is the view after the call. -/
def remove_suffix (self : basic_string_view) (b : Build) (n : Nat) :
    Except Abort basic_string_view :=
  (POLLY_CONST_ASSERT b (decide (n ≤ self.len_)) "n <= len_").bind
    (fun _ => Except.ok ⟨self.ptr_, size_sub self.len_ n⟩)

/-- The member `compare(pos, n, other)`. -/
def compare_sub (self : basic_string_view) (m : Mem) (pos n : Nat)
    (other : basic_string_view) : Except Exception Int :=
  (self.substr pos n).bind (fun w => Except.ok (w.compare m other))

/-- The conversion `operator std::basic_string()`; the result is given by its
units, and `smax` is the `max_size()` of the owning string. -/
def to_basic_string (self : basic_string_view) (m : Mem) (smax : Nat) :
    Except Exception (List Nat) :=
  if self.data = 0 then Except.ok []
  else std_basic_string.mk_ptr_len m smax self.data self.size

/-- Modelled from the spec: the scan of `rfind(v, pos)`, whose body is not
among the sources. The start positions `i`, `i - 1`, ..., `0` are tried from
right to left; the first at which the window of `v.size()` units lies below
`size()` and equals `v` is returned, and the sentinel when there is none. -/
def rfind_from (self : basic_string_view) (m : Mem) (v : basic_string_view) : Nat → Nat
  | 0 =>
    if 0 + v.len_ ≤ self.len_ then
      if traits_type.compare m (self.ptr_ + 0) v.ptr_ v.len_ = 0 then 0 else npos
    else npos
  | i + 1 =>
    if i + 1 + v.len_ ≤ self.len_ then
      if traits_type.compare m (self.ptr_ + (i + 1)) v.ptr_ v.len_ = 0 then i + 1
      else rfind_from self m v i
    else rfind_from self m v i

/-- Modelled from the spec: the member `rfind(v, pos)`, declared in the header
and defined in a file that is not among the sources. `pos` is first clamped to
`size()`; an empty `v` matches at `min(pos, size())`; otherwise the scan goes
from the clamped position to the left and returns the rightmost occurrence of
`v` that starts at or before it, or the sentinel. -/
def rfind (self : basic_string_view) (m : Mem) (v : basic_string_view) (pos : Nat) : Nat :=
  if v.len_ = 0 then min pos self.len_
  else rfind_from self m v (min pos self.len_)

/-- One narrowing step from `v` to `w`: a `substr` call that succeeds, or a
`remove_prefix` or `remove_suffix` call whose precondition `n <= size()`
holds. -/
inductive narrow_step (b : Build) : basic_string_view → basic_string_view → Prop where
  | substr (v w : basic_string_view) (pos n : Nat) :
      v.substr pos n = Except.ok w → narrow_step b v w
  | remove_prefix (v w : basic_string_view) (n : Nat) :
      n ≤ v.size → v.remove_prefix b n = Except.ok w → narrow_step b v w
  | remove_suffix (v w : basic_string_view) (n : Nat) :
      n ≤ v.size → v.remove_suffix b n = Except.ok w → narrow_step b v w

/-- A finite sequence of narrowing steps from `v` to `w`. -/
inductive narrows (b : Build) : basic_string_view → basic_string_view → Prop where
  | refl (v : basic_string_view) : narrows b v v
  | step (v w u : basic_string_view) : narrows b v w → narrow_step b w u → narrows b v u

end basic_string_view

/-! ## The raw unit-wise comparison -/

theorem traits_compare_zero_len (m : Mem) (p q : Nat) :
    traits_type.compare m p q 0 = 0 := rfl

theorem traits_compare_eq_zero_iff (m : Mem) (n : Nat) : ∀ p q : Nat,
    traits_type.compare m p q n = 0 ↔ ∀ j, j < n → m (p + j) = m (q + j) := by
  induction n with
  | zero => intro p q; simp [traits_type.compare]
  | succ n ih =>
    intro p q
    by_cases h : m p = m q
    · simp only [traits_type.compare, if_pos h, ih]
      constructor
      · intro hall j hj
        cases j with
        | zero => simpa using h
        | succ j =>
          have := hall j (by omega)
          simpa [Nat.add_assoc, Nat.add_comm 1 j] using this
      · intro hall j hj
        have := hall (j + 1) (by omega)
        simpa [Nat.add_assoc, Nat.add_comm 1 j] using this
    · simp only [traits_type.compare, if_neg h]
      constructor
      · intro h0
        exact absurd (by omega : m p = m q) h
      · intro hall
        exact absurd (by simpa using hall 0 (by omega)) h

theorem traits_compare_first_diff (m : Mem) (n : Nat) : ∀ p q k : Nat, k < n →
    (∀ j, j < k → m (p + j) = m (q + j)) → m (p + k) ≠ m (q + k) →
    traits_type.compare m p q n = (m (p + k) : Int) - (m (q + k) : Int) := by
  induction n with
  | zero => intro p q k hk; omega
  | succ n ih =>
    intro p q k hk heq hne
    cases k with
    | zero =>
      have h : ¬ m p = m q := by simpa using hne
      simp [traits_type.compare, if_neg h]
    | succ k =>
      have h : m p = m q := by simpa using heq 0 (by omega)
      simp only [traits_type.compare, if_pos h]
      have := ih (p + 1) (q + 1) k (by omega)
        (fun j hj => by
          have := heq (j + 1) (by omega)
          simpa [Nat.add_assoc, Nat.add_comm 1 j] using this)
        (by simpa [Nat.add_assoc, Nat.add_comm 1 k] using hne)
      simpa [Nat.add_assoc, Nat.add_comm 1 k] using this

/-! ## The three-way order of unit sequences -/

theorem lex3_range : ∀ xs ys : List Nat, lex3 xs ys = -1 ∨ lex3 xs ys = 0 ∨ lex3 xs ys = 1
  | [], [] => by simp [lex3]
  | [], _ :: _ => by simp [lex3]
  | _ :: _, [] => by simp [lex3]
  | x :: xs, y :: ys => by
    simp only [lex3]
    split_ifs
    · simp
    · simp
    · exact lex3_range xs ys

theorem lex3_antisymm : ∀ xs ys : List Nat, lex3 ys xs = - lex3 xs ys
  | [], [] => by simp [lex3]
  | [], _ :: _ => by simp [lex3]
  | _ :: _, [] => by simp [lex3]
  | x :: xs, y :: ys => by
    simp only [lex3]
    split_ifs <;> first | omega | simp | exact lex3_antisymm xs ys

theorem lex3_eq_zero_iff : ∀ xs ys : List Nat, lex3 xs ys = 0 ↔ xs = ys
  | [], [] => by simp [lex3]
  | [], _ :: _ => by simp [lex3]
  | _ :: _, [] => by simp [lex3]
  | x :: xs, y :: ys => by
    simp only [lex3]
    split_ifs with h1 h2
    · simp; omega
    · simp; omega
    · have : x = y := by omega
      simp [this, lex3_eq_zero_iff xs ys]

theorem lex3_trans : ∀ xs ys zs : List Nat, lex3 xs ys < 0 → lex3 ys zs < 0 → lex3 xs zs < 0
  | [], [], _ => by simp [lex3]
  | [], _ :: _, [] => by simp [lex3]
  | [], _ :: _, _ :: _ => by simp [lex3]
  | _ :: _, [], _ => by simp [lex3]
  | _ :: _, _ :: _, [] => by simp [lex3]
  | x :: xs, y :: ys, z :: zs => by
    simp only [lex3]
    intro h1 h2
    split_ifs at h1 h2 ⊢ <;> first | omega | simp | exact lex3_trans xs ys zs h1 h2

theorem units_from_eq_iff (m : Mem) (n : Nat) : ∀ p q k : Nat,
    units_from m p n = units_from m q k ↔ n = k ∧ ∀ i, i < n → m (p + i) = m (q + i) := by
  induction n with
  | zero =>
    intro p q k
    cases k <;> simp [units_from]
  | succ n ih =>
    intro p q k
    cases k with
    | zero => simp [units_from]
    | succ k =>
      simp only [units_from, List.cons.injEq, ih, Nat.add_right_cancel_iff]
      constructor
      · rintro ⟨h0, hnk, hall⟩
        refine ⟨hnk, fun i hi => ?_⟩
        cases i with
        | zero => simpa using h0
        | succ i =>
          have := hall i (by omega)
          simpa [Nat.add_assoc, Nat.add_comm 1 i] using this
      · rintro ⟨hnk, hall⟩
        refine ⟨by simpa using hall 0 (by omega), hnk, fun i hi => ?_⟩
        have := hall (i + 1) (by omega)
        simpa [Nat.add_assoc, Nat.add_comm 1 i] using this

theorem CompareHelper_succ (a b : Nat) (r : Int) :
    basic_string_view.CompareHelper (a + 1) (b + 1) r = basic_string_view.CompareHelper a b r := by
  simp [basic_string_view.CompareHelper]

theorem compare_eq_lex3_aux (m : Mem) (n : Nat) : ∀ p q k : Nat,
    (basic_string_view.mk p n).compare m (basic_string_view.mk q k)
      = lex3 (units_from m p n) (units_from m q k) := by
  induction n with
  | zero =>
    intro p q k
    cases k <;> simp [basic_string_view.compare, basic_string_view.CompareHelper, units_from, lex3]
  | succ n ih =>
    intro p q k
    cases k with
    | zero => simp [basic_string_view.compare, basic_string_view.CompareHelper, units_from, lex3]
    | succ k =>
      have hmin : min (n + 1) (k + 1) = min n k + 1 := by omega
      have hih := ih (p + 1) (q + 1) k
      simp only [basic_string_view.compare] at hih
      have hguard : (if min n k = 0 then (0 : Int)
          else traits_type.compare m (p + 1) (q + 1) (min n k))
          = traits_type.compare m (p + 1) (q + 1) (min n k) := by
        split_ifs with h0
        · rw [h0]; rfl
        · rfl
      rw [hguard] at hih
      simp only [basic_string_view.compare, hmin, units_from, lex3, Nat.succ_ne_zero, if_false,
        traits_type.compare, CompareHelper_succ]
      by_cases h : m p = m q
      · simp only [if_pos h, hih]
        simp [h]
      · simp only [if_neg h]
        simp only [basic_string_view.CompareHelper]
        have hd : ((m p : Int) - (m q : Int)) ≠ 0 := by omega
        rw [if_neg hd]
        split_ifs <;> omega

theorem compare_eq_lex3 (m : Mem) (a b : basic_string_view) :
    a.compare m b = lex3 (units_from m a.ptr_ a.len_) (units_from m b.ptr_ b.len_) := by
  cases a; cases b; exact compare_eq_lex3_aux m _ _ _ _

theorem compare_neg (m : Mem) (a b : basic_string_view) :
    a.compare m b = - b.compare m a := by
  rw [compare_eq_lex3, compare_eq_lex3, lex3_antisymm]

theorem compare_range (m : Mem) (a b : basic_string_view) :
    a.compare m b = -1 ∨ a.compare m b = 0 ∨ a.compare m b = 1 := by
  rw [compare_eq_lex3]; exact lex3_range _ _

/-! ## Comparison -/

/-- C1: `a.compare(b)` is exactly -1, 0 or 1 and is the three-way lexicographic
order of the two unit sequences: the first index below `min(a.size(), b.size())`
at which the units differ decides the sign by the raw unit values; when no such
index differs the result is -1, 0 or 1 as `a.size()` is less than, equal to or
greater than `b.size()`. -/
theorem compare_three_way (m : Mem) (a b : basic_string_view) :
    (a.compare m b = -1 ∨ a.compare m b = 0 ∨ a.compare m b = 1) ∧
    (∀ k, k < min a.size b.size → (∀ j, j < k → a.unit m j = b.unit m j) →
      a.unit m k ≠ b.unit m k →
      a.compare m b = if a.unit m k < b.unit m k then -1 else 1) ∧
    ((∀ k, k < min a.size b.size → a.unit m k = b.unit m k) →
      a.compare m b = if a.size < b.size then -1 else if a.size = b.size then 0 else 1) := by
  refine ⟨?_, ?_, ?_⟩
  · exact compare_range m a b
  · intro k hk heq hne
    simp only [basic_string_view.size, basic_string_view.unit] at hk heq hne ⊢
    have hmin : min a.len_ b.len_ ≠ 0 := by omega
    have hr := traits_compare_first_diff m (min a.len_ b.len_) a.ptr_ b.ptr_ k hk heq hne
    simp only [basic_string_view.compare, if_neg hmin, hr, basic_string_view.CompareHelper]
    have hd : ((m (a.ptr_ + k) : Int) - (m (b.ptr_ + k) : Int)) ≠ 0 := by omega
    rw [if_neg hd]
    split_ifs <;> omega
  · intro hall
    simp only [basic_string_view.size, basic_string_view.unit] at hall ⊢
    have hr := (traits_compare_eq_zero_iff m (min a.len_ b.len_) a.ptr_ b.ptr_).2 hall
    have hg : (if min a.len_ b.len_ = 0 then (0 : Int)
        else traits_type.compare m a.ptr_ b.ptr_ (min a.len_ b.len_)) = 0 := by
      split_ifs
      · rfl
      · exact hr
    simp only [basic_string_view.compare, hg, basic_string_view.CompareHelper, if_true]
    split_ifs <;> omega

/-- Witness of C1 on the views "abc" and "abd" of one buffer: index 2 is the
first that differs and decides -1. -/
theorem compare_three_way_witness :
    (basic_string_view.mk 100 3).compare (Mem.ofList 100 [97, 98, 99, 97, 98, 100])
      (basic_string_view.mk 103 3) = -1 := by
  have h := (compare_three_way (Mem.ofList 100 [97, 98, 99, 97, 98, 100])
    (basic_string_view.mk 100 3) (basic_string_view.mk 103 3)).2.1 2 (by decide)
    (by decide) (by decide)
  simpa [basic_string_view.unit, Mem.ofList] using h

/-- C2: `compare` is antisymmetric, `a.compare(b) == -b.compare(a)`. -/
theorem compare_antisymmetric (m : Mem) (a b : basic_string_view) :
    a.compare m b = - b.compare m a :=
  compare_neg m a b

/-- C3: each of the six relational operators agrees with the sign of
`a.compare(b)`. -/
theorem operators_agree_with_compare (m : Mem) (a b : string_view) :
    (operator_eq m a b = true ↔ a.compare m b = 0) ∧
    (operator_ne m a b = true ↔ a.compare m b ≠ 0) ∧
    (operator_lt m a b = true ↔ a.compare m b < 0) ∧
    (operator_gt m a b = true ↔ a.compare m b > 0) ∧
    (operator_le m a b = true ↔ a.compare m b ≤ 0) ∧
    (operator_ge m a b = true ↔ a.compare m b ≥ 0) := by
  have hanti := compare_neg m b a
  refine ⟨?_, ?_, ?_, ?_, ?_, ?_⟩
  · simp [operator_eq]
  · simp [operator_ne, operator_eq]
  · simp [operator_lt]
  · simp only [operator_gt, operator_lt, decide_eq_true_eq]; omega
  · simp only [operator_le, operator_lt, Bool.not_eq_true', decide_eq_false_iff_not]; omega
  · simp only [operator_ge, operator_lt, Bool.not_eq_true', decide_eq_false_iff_not]; omega

/-- C4: the relational operators are a total order on view contents: exactly
one of `a < b`, `a == b`, `b < a` holds; `<` is transitive; and `a == b` holds
exactly when the sizes are equal and the units agree at every index, whatever
the two references are. -/
theorem operators_total_order (m : Mem) (a b c : string_view) :
    ((operator_lt m a b = true ∧ operator_eq m a b = false ∧ operator_lt m b a = false) ∨
     (operator_lt m a b = false ∧ operator_eq m a b = true ∧ operator_lt m b a = false) ∨
     (operator_lt m a b = false ∧ operator_eq m a b = false ∧ operator_lt m b a = true)) ∧
    (operator_lt m a b = true → operator_lt m b c = true → operator_lt m a c = true) ∧
    (operator_eq m a b = true ↔
      a.size = b.size ∧ ∀ i, i < a.size → a.unit m i = b.unit m i) := by
  refine ⟨?_, ?_, ?_⟩
  · have hanti := compare_neg m b a
    have hr := compare_range m a b
    simp only [operator_lt, operator_eq, decide_eq_true_eq, decide_eq_false_iff_not]
    omega
  · simp only [operator_lt, decide_eq_true_eq, compare_eq_lex3]
    exact lex3_trans _ _ _
  · simp only [operator_eq, decide_eq_true_eq, compare_eq_lex3, lex3_eq_zero_iff,
      units_from_eq_iff, basic_string_view.size, basic_string_view.unit]

/-! ## Checked access: `substr` and `at` -/

theorem substr_of_le (v : basic_string_view) (pos n : Nat) (h : pos ≤ v.len_) :
    v.substr pos n = Except.ok ⟨v.ptr_ + pos, min n (v.len_ - pos)⟩ := by
  have hn : ¬ pos > v.len_ := by omega
  simp [basic_string_view.substr, POLLY_EXPECT_FALSE, hn, basic_string_view.mk_ptr_len]

theorem substr_of_gt (v : basic_string_view) (pos n : Nat) (h : pos > v.len_) :
    v.substr pos n = Except.error (Exception.OutOfRange "polly::string_view::substr") := by
  simp [basic_string_view.substr, POLLY_EXPECT_FALSE, h, ThrowStdOutOfRange, Except.bind]

/-- C5: for `pos <= v.size()` and every `n`, `v.substr(pos, n)` succeeds with a
view of size `min(n, v.size() - pos)` and reference `v.data() + pos`, whose
`i`-th unit is the `(pos + i)`-th unit of `v`; with `n` left at its default
`npos` the size is `v.size() - pos`. The size of `v` is a `size_type` value. -/
theorem substr_in_range (v : basic_string_view) (pos n : Nat)
    (hsize : v.size < SIZE_MOD) (hpos : pos ≤ v.size) :
    (∃ w, v.substr pos n = Except.ok w ∧
      w.size = min n (v.size - pos) ∧ w.data = v.data + pos ∧
      ∀ (m : Mem) (i : Nat), w.unit m i = v.unit m (pos + i)) ∧
    (∃ w, v.substr pos basic_string_view.npos = Except.ok w ∧
      w.size = v.size - pos ∧ w.data = v.data + pos) := by
  simp only [basic_string_view.size] at hsize hpos
  refine ⟨⟨_, substr_of_le v pos n hpos, rfl, rfl, ?_⟩, ⟨_, substr_of_le v pos _ hpos, ?_, rfl⟩⟩
  · intro m i
    simp [basic_string_view.unit, Nat.add_assoc]
  · simp only [basic_string_view.size, basic_string_view.npos]
    omega

/-- Witness of C5: the 3 units from index 2 of a 10-unit view. -/
theorem substr_in_range_witness :
    (basic_string_view.mk 100 10).size < SIZE_MOD ∧ 2 ≤ (basic_string_view.mk 100 10).size ∧
    (∃ w, (basic_string_view.mk 100 10).substr 2 3 = Except.ok w ∧
      w.size = min 3 ((basic_string_view.mk 100 10).size - 2) ∧
      w.data = (basic_string_view.mk 100 10).data + 2 ∧
      ∀ (m : Mem) (i : Nat), w.unit m i = (basic_string_view.mk 100 10).unit m (2 + i)) ∧
    (∃ w, (basic_string_view.mk 100 10).substr 2 basic_string_view.npos = Except.ok w ∧
      w.size = (basic_string_view.mk 100 10).size - 2 ∧
      w.data = (basic_string_view.mk 100 10).data + 2) :=
  have hsize : (basic_string_view.mk 100 10).size < SIZE_MOD := by
    simp [basic_string_view.size, SIZE_MOD, SIZE_BITS]
  have hpos : 2 ≤ (basic_string_view.mk 100 10).size := by decide
  ⟨hsize, hpos, (substr_in_range (basic_string_view.mk 100 10) 2 3 hsize hpos).1,
    (substr_in_range (basic_string_view.mk 100 10) 2 3 hsize hpos).2⟩

/-- C6: `v.substr(pos, n)` signals OutOfRange exactly when `pos > v.size()` and
succeeds otherwise; `v.substr(v.size())` succeeds with an empty view and
`v.substr(v.size() + 1)` signals OutOfRange, also when the position is computed
in `size_type` arithmetic from a size below `npos`. -/
theorem substr_out_of_range_iff (v : basic_string_view) (pos n : Nat) :
    (v.substr pos n = Except.error (Exception.OutOfRange "polly::string_view::substr")
      ↔ pos > v.size) ∧
    ((∃ w, v.substr pos n = Except.ok w) ↔ pos ≤ v.size) ∧
    (∃ w, v.substr v.size n = Except.ok w ∧ w.size = 0 ∧ w.empty = true) ∧
    v.substr (v.size + 1) n
      = Except.error (Exception.OutOfRange "polly::string_view::substr") ∧
    (v.size < basic_string_view.npos →
      v.substr ((v.size + 1) % SIZE_MOD) n
        = Except.error (Exception.OutOfRange "polly::string_view::substr")) := by
  simp only [basic_string_view.size]
  refine ⟨?_, ?_, ?_, ?_, ?_⟩
  · by_cases h : pos > v.len_
    · simp [substr_of_gt v pos n h, h]
    · simp [substr_of_le v pos n (by omega), h]
  · by_cases h : pos > v.len_
    · simp [substr_of_gt v pos n h]; omega
    · simp [substr_of_le v pos n (by omega)]; omega
  · refine ⟨_, substr_of_le v v.len_ n (Nat.le_refl _), ?_, ?_⟩
    · simp
    · simp [basic_string_view.empty]
  · exact substr_of_gt v _ n (by omega)
  · intro h
    simp only [basic_string_view.npos, SIZE_MOD, SIZE_BITS] at h
    have hlt : v.len_ + 1 < 2 ^ 64 := by omega
    simp only [SIZE_MOD, SIZE_BITS, Nat.mod_eq_of_lt hlt]
    exact substr_of_gt v _ n (by omega)

/-- Witness of C6 on a 3-unit view: position 3 gives an empty view and position
4 signals OutOfRange. -/
theorem substr_out_of_range_iff_witness :
    (∃ w, (basic_string_view.mk 100 3).substr 3 5 = Except.ok w ∧ w.size = 0 ∧ w.empty = true) ∧
    (basic_string_view.mk 100 3).substr 4 5
      = Except.error (Exception.OutOfRange "polly::string_view::substr") :=
  ⟨(substr_out_of_range_iff (basic_string_view.mk 100 3) 3 5).2.2.1,
   (substr_out_of_range_iff (basic_string_view.mk 100 3) 3 5).2.2.2.1⟩

theorem at_of_lt (v : basic_string_view) (m : Mem) (i : Nat) (h : i < v.len_) :
    v.at_ m i = Except.ok (m (v.ptr_ + i)) := by
  simp [basic_string_view.at_, POLLY_EXPECT_TRUE, basic_string_view.size, h]

theorem at_of_ge (v : basic_string_view) (m : Mem) (i : Nat) (h : v.len_ ≤ i) :
    v.at_ m i = Except.error (Exception.OutOfRange "polly::string_view::at") := by
  have hn : ¬ i < v.len_ := by omega
  simp [basic_string_view.at_, POLLY_EXPECT_TRUE, basic_string_view.size, hn,
    ThrowStdOutOfRange, Except.bind]

/-- C7: `v.at(i)` returns the unit at index `i` when `i < v.size()` and signals
OutOfRange otherwise; so `v.at(v.size())` signals OutOfRange and, for a
non-empty `v`, `v.at(v.size() - 1)` returns the last unit. -/
theorem at_checked (v : basic_string_view) (m : Mem) (i : Nat) :
    (i < v.size → v.at_ m i = Except.ok (v.unit m i)) ∧
    (¬ i < v.size → v.at_ m i = Except.error (Exception.OutOfRange "polly::string_view::at")) ∧
    v.at_ m v.size = Except.error (Exception.OutOfRange "polly::string_view::at") ∧
    (v.empty = false → v.at_ m (v.size - 1) = Except.ok (v.unit m (v.size - 1))) := by
  simp only [basic_string_view.size, basic_string_view.unit, basic_string_view.empty]
  refine ⟨fun h => at_of_lt v m i h, fun h => at_of_ge v m i (by omega),
    at_of_ge v m _ (Nat.le_refl _), fun h => at_of_lt v m _ ?_⟩
  have : v.len_ ≠ 0 := by simpa using h
  omega

/-- Witness of C7 on the view "abc": index 1 holds 98, index 3 signals
OutOfRange and index 2 holds the last unit 99. -/
theorem at_checked_witness :
    (basic_string_view.mk 100 3).at_ (Mem.ofList 100 [97, 98, 99]) 1 = Except.ok 98 ∧
    (basic_string_view.mk 100 3).at_ (Mem.ofList 100 [97, 98, 99]) 3
      = Except.error (Exception.OutOfRange "polly::string_view::at") ∧
    (basic_string_view.mk 100 3).at_ (Mem.ofList 100 [97, 98, 99]) 2 = Except.ok 99 :=
  ⟨(at_checked (basic_string_view.mk 100 3) (Mem.ofList 100 [97, 98, 99]) 1).1 (by decide),
   (at_checked (basic_string_view.mk 100 3) (Mem.ofList 100 [97, 98, 99]) 1).2.2.1,
   (at_checked (basic_string_view.mk 100 3) (Mem.ofList 100 [97, 98, 99]) 1).2.2.2 (by decide)⟩

/-! ## `copy` -/

theorem traits_copy_outside (n : Nat) : ∀ (m : Mem) (dst src a : Nat),
    (a < dst ∨ dst + n ≤ a) → traits_type.copy m dst src n a = m a := by
  induction n with
  | zero => intro m dst src a _; rfl
  | succ n ih =>
    intro m dst src a h
    simp only [traits_type.copy]
    rw [ih _ _ _ _ (by omega)]
    have hne : a ≠ dst := by omega
    simp [Mem.store, hne]

theorem traits_copy_inside (n : Nat) : ∀ (m : Mem) (dst src : Nat),
    (dst + n ≤ src ∨ src + n ≤ dst) →
    ∀ i, i < n → traits_type.copy m dst src n (dst + i) = m (src + i) := by
  induction n with
  | zero => intro m dst src _ i hi; omega
  | succ n ih =>
    intro m dst src h i hi
    simp only [traits_type.copy]
    cases i with
    | zero =>
      rw [traits_copy_outside n _ _ _ _ (by omega)]
      simp [Mem.store]
    | succ i =>
      have e1 : dst + (i + 1) = dst + 1 + i := by omega
      have e2 : src + (i + 1) = src + 1 + i := by omega
      rw [e1, e2, ih _ _ _ (by omega) i (by omega)]
      have hne : src + 1 + i ≠ dst := by omega
      simp [Mem.store, hne]

theorem copy_of_le (v : basic_string_view) (m : Mem) (buf n pos : Nat) (h : pos ≤ v.len_) :
    v.copy m buf n pos
      = ⟨Except.ok (min (v.len_ - pos) n), v,
          traits_type.copy m buf (v.ptr_ + pos) (min (v.len_ - pos) n)⟩ := by
  have hn : ¬ pos > v.len_ := by omega
  simp only [basic_string_view.copy, POLLY_EXPECT_FALSE, hn, decide_False, Bool.false_eq_true,
    if_false]
  split_ifs with h0
  · rfl
  · have hz : min (v.len_ - pos) n = 0 := by omega
    rw [hz]; rfl

theorem copy_of_gt (v : basic_string_view) (m : Mem) (buf n pos : Nat) (h : pos > v.len_) :
    v.copy m buf n pos
      = ⟨Except.error (Exception.OutOfRange "polly::string_view::copy"), v, m⟩ := by
  simp [basic_string_view.copy, POLLY_EXPECT_FALSE, h, ThrowStdOutOfRange]

/-- C8: for `pos <= v.size()` and every `n`, `v.copy(buf, n, pos)` returns
`r = min(n, v.size() - pos)`, and when the `r` units of the buffer do not
overlap the `r` units copied (the requirement of the unit-traits `copy`),
afterwards `buf[i]` is the unit of `v` at `pos + i` for every `i < r`, read
before or after the call. -/
theorem copy_in_range (v : basic_string_view) (m : Mem) (buf n pos : Nat)
    (hpos : pos ≤ v.size) :
    (v.copy m buf n pos).ret = Except.ok (min n (v.size - pos)) ∧
    ((buf + min n (v.size - pos) ≤ v.data + pos ∨
        v.data + pos + min n (v.size - pos) ≤ buf) →
      ∀ i, i < min n (v.size - pos) →
        (v.copy m buf n pos).mem (buf + i) = v.unit m (pos + i) ∧
        (v.copy m buf n pos).mem (buf + i) = v.unit (v.copy m buf n pos).mem (pos + i)) := by
  simp only [basic_string_view.size, basic_string_view.data, basic_string_view.unit] at hpos ⊢
  rw [copy_of_le v m buf n pos hpos, Nat.min_comm (v.len_ - pos) n]
  refine ⟨rfl, ?_⟩
  intro hdisj i hi
  have hin := traits_copy_inside (min n (v.len_ - pos)) m buf (v.ptr_ + pos) hdisj i hi
  have hout := traits_copy_outside (min n (v.len_ - pos)) m buf (v.ptr_ + pos)
    (v.ptr_ + pos + i) (by omega)
  simp only [Nat.add_assoc] at hin hout ⊢
  exact ⟨hin, by rw [hin, hout]⟩

/-- Witness of C8: on the 10-unit view "0123456789", `copy(buf, 3, 8)` returns
2 and stores the units at indices 8 and 9 in `buf[0]` and `buf[1]`. -/
theorem copy_in_range_witness :
    8 ≤ (basic_string_view.mk 100 10).size ∧
    ((basic_string_view.mk 100 10).copy
        (Mem.ofList 100 [48, 49, 50, 51, 52, 53, 54, 55, 56, 57]) 200 3 8).ret = Except.ok 2 ∧
    ((basic_string_view.mk 100 10).copy
        (Mem.ofList 100 [48, 49, 50, 51, 52, 53, 54, 55, 56, 57]) 200 3 8).mem 200 = 56 ∧
    ((basic_string_view.mk 100 10).copy
        (Mem.ofList 100 [48, 49, 50, 51, 52, 53, 54, 55, 56, 57]) 200 3 8).mem 201 = 57 := by
  have h := copy_in_range (basic_string_view.mk 100 10)
    (Mem.ofList 100 [48, 49, 50, 51, 52, 53, 54, 55, 56, 57]) 200 3 8 (by decide)
  refine ⟨by decide, h.1, ?_, ?_⟩
  · exact (h.2 (by decide) 0 (by decide)).1
  · exact (h.2 (by decide) 1 (by decide)).1

/-- C9: `v.copy(buf, n, pos)` signals OutOfRange exactly when `pos > v.size()`,
and then memory is unchanged; when it returns `r`, every address outside the
`r` units from `buf` on keeps its value, in particular `buf[i]` for `i >= r`;
the view itself is unchanged in both cases. -/
theorem copy_frame (v : basic_string_view) (m : Mem) (buf n pos : Nat) :
    ((v.copy m buf n pos).ret = Except.error (Exception.OutOfRange "polly::string_view::copy")
      ↔ pos > v.size) ∧
    ((∃ r, (v.copy m buf n pos).ret = Except.ok r) ↔ pos ≤ v.size) ∧
    (pos > v.size → (v.copy m buf n pos).mem = m) ∧
    (∀ r, (v.copy m buf n pos).ret = Except.ok r →
      (∀ i, r ≤ i → (v.copy m buf n pos).mem (buf + i) = m (buf + i)) ∧
      (∀ a, (a < buf ∨ buf + r ≤ a) → (v.copy m buf n pos).mem a = m a)) ∧
    (v.copy m buf n pos).self = v := by
  simp only [basic_string_view.size]
  by_cases h : pos > v.len_
  · rw [copy_of_gt v m buf n pos h]
    refine ⟨by simp [h], by simp; omega, fun _ => rfl, ?_, rfl⟩
    intro r hr
    simp at hr
  · rw [copy_of_le v m buf n pos (by omega)]
    refine ⟨by simp [h], by simp; omega, fun h1 => absurd h1 h, ?_, rfl⟩
    intro r hr
    simp only [Except.ok.injEq] at hr
    subst hr
    exact ⟨fun i hi => traits_copy_outside _ m buf _ _ (by omega),
      fun a ha => traits_copy_outside _ m buf _ _ ha⟩

/-- Witness of C9: `copy(buf, 3, 8)` on a 10-unit view leaves `buf[2]` as it
was, and `copy(buf, 3, 11)` signals OutOfRange and leaves memory as it was. -/
theorem copy_frame_witness :
    ((basic_string_view.mk 100 10).copy
        (Mem.ofList 100 [48, 49, 50, 51, 52, 53, 54, 55, 56, 57]) 200 3 8).mem (200 + 2)
      = Mem.ofList 100 [48, 49, 50, 51, 52, 53, 54, 55, 56, 57] (200 + 2) ∧
    ((basic_string_view.mk 100 10).copy
        (Mem.ofList 100 [48, 49, 50, 51, 52, 53, 54, 55, 56, 57]) 200 3 11).mem
      = Mem.ofList 100 [48, 49, 50, 51, 52, 53, 54, 55, 56, 57] :=
  ⟨((copy_frame (basic_string_view.mk 100 10)
      (Mem.ofList 100 [48, 49, 50, 51, 52, 53, 54, 55, 56, 57]) 200 3 8).2.2.2.1 2
      rfl).1 2 (by decide),
   (copy_frame (basic_string_view.mk 100 10)
      (Mem.ofList 100 [48, 49, 50, 51, 52, 53, 54, 55, 56, 57]) 200 3 11).2.2.1 (by decide)⟩

/-! ## `find` -/

theorem occurs_at_iff (v : basic_string_view) (m : Mem) (p : basic_string_view) (i : Nat) :
    v.occurs_at m p i ↔
      i + p.len_ ≤ v.len_ ∧ traits_type.compare m (v.ptr_ + i) p.ptr_ p.len_ = 0 := by
  simp only [basic_string_view.occurs_at, basic_string_view.size, basic_string_view.unit,
    traits_compare_eq_zero_iff, Nat.add_assoc]

theorem find_from_found (v : basic_string_view) (m : Mem) (p : basic_string_view) (fuel : Nat) :
    ∀ i k : Nat, i ≤ k → k - i < fuel → v.occurs_at m p k →
      (∀ j, i ≤ j → j < k → ¬ v.occurs_at m p j) →
      v.find_from m p i fuel = k := by
  induction fuel with
  | zero => intro i k _ h; omega
  | succ fuel ih =>
    intro i k hik hfuel hk hmin
    have hk2 := (occurs_at_iff v m p k).1 hk
    have hfit : i + p.len_ ≤ v.len_ := by omega
    simp only [basic_string_view.find_from, if_pos hfit]
    by_cases h0 : traits_type.compare m (v.ptr_ + i) p.ptr_ p.len_ = 0
    · rw [if_pos h0]
      have hi : v.occurs_at m p i := (occurs_at_iff v m p i).2 ⟨hfit, h0⟩
      by_contra hne
      exact hmin i (Nat.le_refl _) (by omega) hi
    · rw [if_neg h0]
      have hne : i ≠ k := by
        intro e
        rw [e] at h0
        exact h0 hk2.2
      exact ih (i + 1) k (by omega) (by omega) hk (fun j hj hjk => hmin j (by omega) hjk)

theorem find_from_none (v : basic_string_view) (m : Mem) (p : basic_string_view) (fuel : Nat) :
    ∀ i : Nat, (∀ j, i ≤ j → ¬ v.occurs_at m p j) →
      v.find_from m p i fuel = basic_string_view.npos := by
  induction fuel with
  | zero => intro i _; rfl
  | succ fuel ih =>
    intro i hnone
    simp only [basic_string_view.find_from]
    split_ifs with hfit h0
    · exact absurd ((occurs_at_iff v m p i).2 ⟨hfit, h0⟩) (hnone i (Nat.le_refl _))
    · exact ih (i + 1) (fun j hj => hnone j (by omega))
    · rfl

/-- C10: `v.find(p, pos)` returns the least index `i >= pos` such that
`i + p.size() <= v.size()` and the units of `v` at `[i, i + p.size())` are those
of `p`; it returns `npos`, the maximum size value, when there is no such index,
which includes every `pos > v.size()`. -/
theorem find_least_occurrence (v : basic_string_view) (m : Mem) (p : basic_string_view)
    (pos : Nat) :
    (∀ i, pos ≤ i → v.occurs_at m p i → (∀ j, pos ≤ j → j < i → ¬ v.occurs_at m p j) →
      v.find m p pos = i) ∧
    ((∀ i, pos ≤ i → ¬ v.occurs_at m p i) → v.find m p pos = basic_string_view.npos) ∧
    (pos > v.size → v.find m p pos = basic_string_view.npos) ∧
    basic_string_view.npos = 2 ^ 64 - 1 := by
  refine ⟨?_, ?_, ?_, rfl⟩
  · intro i hi hocc hmin
    have h2 := (occurs_at_iff v m p i).1 hocc
    have hpos : ¬ pos > v.len_ := by omega
    simp only [basic_string_view.find, if_neg hpos]
    split_ifs with hp
    · have hp0 : v.occurs_at m p pos := by
        rw [occurs_at_iff, hp]
        exact ⟨by omega, rfl⟩
      by_contra hne
      have : pos < i := by omega
      exact hmin pos (Nat.le_refl _) this hp0
    · exact find_from_found v m p _ pos i hi (by omega) hocc hmin
  · intro hnone
    simp only [basic_string_view.find]
    split_ifs with hpos hp
    · rfl
    · have hp0 : v.occurs_at m p pos := by
        rw [occurs_at_iff, hp]
        exact ⟨by omega, rfl⟩
      exact absurd hp0 (hnone pos (Nat.le_refl _))
    · exact find_from_none v m p _ pos hnone
  · intro hpos
    simp only [basic_string_view.size] at hpos
    simp [basic_string_view.find, hpos]

/-- Witness of C10: on the view "abcabc" the pattern "bc" is first found at
index 1. -/
theorem find_least_occurrence_witness :
    (basic_string_view.mk 100 6).find (Mem.ofList 100 [97, 98, 99, 97, 98, 99, 98, 99])
      (basic_string_view.mk 106 2) 0 = 1 :=
  (find_least_occurrence (basic_string_view.mk 100 6)
    (Mem.ofList 100 [97, 98, 99, 97, 98, 99, 98, 99]) (basic_string_view.mk 106 2) 0).1 1
    (by decide)
    (by rw [occurs_at_iff]; decide)
    (fun j _ hj => by
      have hj0 : j = 0 := by omega
      rw [hj0, occurs_at_iff]; decide)

/-! ## `rfind` -/

theorem rfind_from_found (v : basic_string_view) (m : Mem) (p : basic_string_view) (start : Nat) :
    ∀ k : Nat, k ≤ start → v.occurs_at m p k →
      (∀ j, j ≤ start → k < j → ¬ v.occurs_at m p j) →
      v.rfind_from m p start = k := by
  induction start with
  | zero =>
    intro k hk hocc _
    have hk0 : k = 0 := by omega
    subst hk0
    have h2 := (occurs_at_iff v m p 0).1 hocc
    simp only [basic_string_view.rfind_from, if_pos h2.1, if_pos h2.2]
  | succ start ih =>
    intro k hk hocc hmax
    simp only [basic_string_view.rfind_from]
    by_cases hks : k = start + 1
    · subst hks
      have h2 := (occurs_at_iff v m p (start + 1)).1 hocc
      simp only [if_pos h2.1, if_pos h2.2]
    · have hno : ¬ v.occurs_at m p (start + 1) := hmax (start + 1) (Nat.le_refl _) (by omega)
      have hrec := ih k (by omega) hocc (fun j hj hkj => hmax j (by omega) hkj)
      split_ifs with hfit h0
      · exact absurd ((occurs_at_iff v m p (start + 1)).2 ⟨hfit, h0⟩) hno
      · exact hrec
      · exact hrec

theorem rfind_from_none (v : basic_string_view) (m : Mem) (p : basic_string_view) (start : Nat) :
    (∀ j, j ≤ start → ¬ v.occurs_at m p j) →
      v.rfind_from m p start = basic_string_view.npos := by
  induction start with
  | zero =>
    intro hnone
    simp only [basic_string_view.rfind_from]
    split_ifs with hfit h0
    · exact absurd ((occurs_at_iff v m p 0).2 ⟨hfit, h0⟩) (hnone 0 (Nat.le_refl _))
    · rfl
    · rfl
  | succ start ih =>
    intro hnone
    have hrec := ih (fun j hj => hnone j (by omega))
    simp only [basic_string_view.rfind_from]
    split_ifs with hfit h0
    · exact absurd ((occurs_at_iff v m p (start + 1)).2 ⟨hfit, h0⟩)
        (hnone (start + 1) (Nat.le_refl _))
    · exact hrec
    · exact hrec

/-- C11: `v.rfind(p, pos)` returns the greatest index `i <= min(pos, v.size())`
such that `i + p.size() <= v.size()` and the units of `v` at
`[i, i + p.size())` are those of `p`; it returns `npos` when there is no such
index. -/
theorem rfind_greatest_occurrence (v : basic_string_view) (m : Mem) (p : basic_string_view)
    (pos : Nat) :
    (∀ i, i ≤ min pos v.size → v.occurs_at m p i →
      (∀ j, j ≤ min pos v.size → i < j → ¬ v.occurs_at m p j) →
      v.rfind m p pos = i) ∧
    ((∀ i, i ≤ min pos v.size → ¬ v.occurs_at m p i) →
      v.rfind m p pos = basic_string_view.npos) := by
  simp only [basic_string_view.size]
  refine ⟨?_, ?_⟩
  · intro i hi hocc hmax
    simp only [basic_string_view.rfind]
    split_ifs with hp
    · have hp0 : v.occurs_at m p (min pos v.len_) := by
        rw [occurs_at_iff, hp]
        exact ⟨by omega, rfl⟩
      by_contra hne
      exact hmax (min pos v.len_) (Nat.le_refl _) (by omega) hp0
    · exact rfind_from_found v m p _ i hi hocc hmax
  · intro hnone
    simp only [basic_string_view.rfind]
    split_ifs with hp
    · have hp0 : v.occurs_at m p (min pos v.len_) := by
        rw [occurs_at_iff, hp]
        exact ⟨by omega, rfl⟩
      exact absurd hp0 (hnone _ (Nat.le_refl _))
    · exact rfind_from_none v m p _ hnone

/-- Witness of C11: on the view "abcabc", with the default position `npos`,
the pattern "bc" is last found at index 4. -/
theorem rfind_greatest_occurrence_witness :
    (basic_string_view.mk 100 6).rfind (Mem.ofList 100 [97, 98, 99, 97, 98, 99, 98, 99])
      (basic_string_view.mk 106 2) basic_string_view.npos = 4 :=
  (rfind_greatest_occurrence (basic_string_view.mk 100 6)
    (Mem.ofList 100 [97, 98, 99, 97, 98, 99, 98, 99]) (basic_string_view.mk 106 2)
    basic_string_view.npos).1 4
    (by decide)
    (by rw [occurs_at_iff]; decide)
    (fun j hj h4 => by
      have hj6 : j ≤ 6 := le_trans hj (Nat.min_le_right _ _)
      have hj' : j = 5 ∨ j = 6 := by omega
      rcases hj' with h | h <;> (rw [h, occurs_at_iff]; decide))

/-! ## Construction from a null-terminated sequence -/

theorem length_scan_first_zero (m : Mem) (L : Nat) : ∀ s fuel : Nat, L < fuel →
    m (s + L) = 0 → (∀ j, j < L → m (s + j) ≠ 0) →
    traits_type.length_scan m s fuel = some L := by
  induction L with
  | zero =>
    intro s fuel hf h0 _
    cases fuel with
    | zero => omega
    | succ fuel =>
      have h0' : m s = 0 := by simpa using h0
      simp [traits_type.length_scan, h0']
  | succ L ih =>
    intro s fuel hf h0 hne
    cases fuel with
    | zero => omega
    | succ fuel =>
      have hs : m s ≠ 0 := by simpa using hne 0 (by omega)
      have hrec := ih (s + 1) fuel (by omega)
        (by simpa [Nat.add_assoc, Nat.add_comm 1 L] using h0)
        (fun j hj => by
          have := hne (j + 1) (by omega)
          simpa [Nat.add_assoc, Nat.add_comm 1 j] using this)
      simp [traits_type.length_scan, hs, hrec]

theorem mk_cstr_null (m : Mem) :
    basic_string_view.mk_cstr m 0 = some basic_string_view.default := by
  simp [basic_string_view.mk_cstr, basic_string_view.default]

/-- C12: for a non-null `s` whose first terminator is `L` units after `s`, the
view constructed from `s` alone is the view constructed from `(s, L)`: its
reference is `s` and its size is `L`. -/
theorem mk_cstr_eq_mk_ptr_len (m : Mem) (s L : Nat) (hs : s ≠ 0) (hL : L < SIZE_MOD)
    (hterm : m (s + L) = 0) (hfirst : ∀ j, j < L → m (s + j) ≠ 0) :
    ∃ w, basic_string_view.mk_cstr m s = some w ∧ w = basic_string_view.mk_ptr_len s L ∧
      w.data = s ∧ w.size = L ∧
      (basic_string_view.mk_ptr_len s L).data = s ∧
      (basic_string_view.mk_ptr_len s L).size = L := by
  refine ⟨basic_string_view.mk_ptr_len s L, ?_, rfl, rfl, rfl, rfl, rfl⟩
  have hlen : traits_type.length m s = some L :=
    length_scan_first_zero m L s SIZE_MOD hL hterm hfirst
  simp [basic_string_view.mk_cstr, hs, hlen, basic_string_view.mk_ptr_len]

/-- Witness of C12: the sequence "abc" followed by the terminator, at address
100. -/
theorem mk_cstr_eq_mk_ptr_len_witness :
    (100 ≠ 0 ∧ 3 < SIZE_MOD ∧ Mem.ofList 100 [97, 98, 99, 0] (100 + 3) = 0) ∧
    ∃ w, basic_string_view.mk_cstr (Mem.ofList 100 [97, 98, 99, 0]) 100 = some w ∧
      w = basic_string_view.mk_ptr_len 100 3 ∧ w.data = 100 ∧ w.size = 3 ∧
      (basic_string_view.mk_ptr_len 100 3).data = 100 ∧
      (basic_string_view.mk_ptr_len 100 3).size = 3 :=
  ⟨⟨by decide, by decide, by decide⟩,
   mk_cstr_eq_mk_ptr_len (Mem.ofList 100 [97, 98, 99, 0]) 100 3 (by decide) (by decide)
    (by decide) (fun j hj => by
      have hj' : j = 0 ∨ j = 1 ∨ j = 2 := by omega
      rcases hj' with h | h | h <;> (rw [h]; decide))⟩

/-! ## `remove_prefix` and `remove_suffix` -/

theorem size_sub_of_le (a b : Nat) (ha : a < SIZE_MOD) (h : b ≤ a) : size_sub a b = a - b := by
  simp only [size_sub, SIZE_MOD, SIZE_BITS] at ha ⊢
  omega

theorem size_sub_of_gt (a b : Nat) (hb : b < SIZE_MOD) (h : a < b) :
    size_sub a b = a + SIZE_MOD - b := by
  simp only [size_sub, SIZE_MOD, SIZE_BITS] at hb ⊢
  omega

theorem remove_prefix_of_le (v : basic_string_view) (b : Build) (n : Nat) (h : n ≤ v.len_) :
    v.remove_prefix b n = Except.ok ⟨v.ptr_ + n, size_sub v.len_ n⟩ := by
  cases b <;>
    simp [ basic_string_view.remove_prefix, POLLY_CONST_ASSERT, POLLY_EXPECT_TRUE, h, Except.bind]

theorem remove_suffix_of_le (v : basic_string_view) (b : Build) (n : Nat) (h : n ≤ v.len_) :
    v.remove_suffix b n = Except.ok ⟨v.ptr_, size_sub v.len_ n⟩ := by
  cases b <;>
    simp [basic_string_view.remove_suffix, POLLY_CONST_ASSERT, POLLY_EXPECT_TRUE, h, Except.bind]

/-- C13: for `n <= v.size()`, in either build `remove_prefix(n)` passes its
assertion and leaves the view with size `v.size() - n` and reference
`v.data() + n`, which is `v.substr(n)`; `remove_suffix(n)` passes its assertion
and leaves the view with size `v.size() - n` and the same reference, which is
`v.substr(0, v.size() - n)`. The size of `v` is a `size_type` value. -/
theorem remove_prefix_suffix_narrow (v : basic_string_view) (b : Build) (n : Nat)
    (hsize : v.size < SIZE_MOD) (hn : n ≤ v.size) :
    v.remove_prefix b n = Except.ok ⟨v.data + n, v.size - n⟩ ∧
    v.substr n basic_string_view.npos = Except.ok ⟨v.data + n, v.size - n⟩ ∧
    v.remove_suffix b n = Except.ok ⟨v.data, v.size - n⟩ ∧
    v.substr 0 (v.size - n) = Except.ok ⟨v.data, v.size - n⟩ := by
  simp only [basic_string_view.size, basic_string_view.data] at hsize hn ⊢
  have hsub := size_sub_of_le v.len_ n hsize hn
  refine ⟨?_, ?_, ?_, ?_⟩
  · rw [remove_prefix_of_le v b n hn, hsub]
  · rw [substr_of_le v n _ hn]
    have : min basic_string_view.npos (v.len_ - n) = v.len_ - n := by
      simp only [basic_string_view.npos, SIZE_MOD, SIZE_BITS] at hsize ⊢
      omega
    rw [this]
  · rw [remove_suffix_of_le v b n hn, hsub]
  · rw [substr_of_le v 0 _ (Nat.zero_le _)]
    have : min (v.len_ - n) (v.len_ - 0) = v.len_ - n := by omega
    rw [this]
    rfl

/-- Witness of C13: removing 2 units from either end of a 6-unit view, in a
debug build. -/
theorem remove_prefix_suffix_narrow_witness :
    ((basic_string_view.mk 100 6).size < SIZE_MOD ∧ 2 ≤ (basic_string_view.mk 100 6).size) ∧
    basic_string_view.remove_prefix (basic_string_view.mk 100 6) Build.debug 2 = Except.ok ⟨102, 4⟩ ∧
    (basic_string_view.mk 100 6).substr 2 basic_string_view.npos = Except.ok ⟨102, 4⟩ ∧
    (basic_string_view.mk 100 6).remove_suffix Build.debug 2 = Except.ok ⟨100, 4⟩ ∧
    (basic_string_view.mk 100 6).substr 0 4 = Except.ok ⟨100, 4⟩ :=
  ⟨⟨by decide, by decide⟩,
   remove_prefix_suffix_narrow (basic_string_view.mk 100 6) Build.debug 2 (by decide)
    (by decide)⟩

/-! ## The size bound and the window under narrowing -/

theorem size_sub_le (a b : Nat) (h : b ≤ a) : size_sub a b ≤ a - b := by
  simp only [size_sub, SIZE_MOD, SIZE_BITS]
  omega

theorem narrow_step_window (b : Build) (v w : basic_string_view)
    (h : basic_string_view.narrow_step b v w) :
    w.len_ ≤ v.len_ ∧ v.ptr_ ≤ w.ptr_ ∧ w.ptr_ + w.len_ ≤ v.ptr_ + v.len_ := by
  cases h with
  | substr pos n hs =>
    by_cases hpos : pos > v.len_
    · rw [substr_of_gt v pos n hpos] at hs
      cases hs
    · rw [substr_of_le v pos n (by omega)] at hs
      simp only [Except.ok.injEq] at hs
      subst hs
      simp only
      omega
  | remove_prefix n hn hs =>
    simp only [basic_string_view.size] at hn
    have hle := size_sub_le v.len_ n hn
    rw [remove_prefix_of_le v b n hn] at hs
    simp only [Except.ok.injEq] at hs
    subst hs
    simp only
    omega
  | remove_suffix n hn hs =>
    simp only [basic_string_view.size] at hn
    have hle := size_sub_le v.len_ n hn
    rw [remove_suffix_of_le v b n hn] at hs
    simp only [Except.ok.injEq] at hs
    subst hs
    simp only
    omega

theorem narrows_window (b : Build) (v w : basic_string_view)
    (h : basic_string_view.narrows b v w) :
    w.len_ ≤ v.len_ ∧ v.ptr_ ≤ w.ptr_ ∧ w.ptr_ + w.len_ ≤ v.ptr_ + v.len_ := by
  induction h with
  | refl => omega
  | step w u _ hstep ih =>
    have := narrow_step_window b w u hstep
    omega

/-- Counterexample to C14: the view constructed from a pointer and the count
`2 ^ 63` has a size above `max_size()`. -/
theorem size_le_max_size_counterexample :
    ¬ ((basic_string_view.mk_ptr_len 100 (2 ^ 63)).size
        ≤ (basic_string_view.mk_ptr_len 100 (2 ^ 63)).max_size) := by
  simp [basic_string_view.mk_ptr_len, basic_string_view.size, basic_string_view.max_size,
    basic_string_view.kMaxSize, SIZE_BITS]

/-- C14, amended: `max_size()` is `2 ^ 63 - 1`; the default view has size 0; the
constructors from (pointer, count), from an owning string and from a
null-terminated sequence take the count, the size of the string and the
scanned length as they are, so that `size() <= max_size()` holds for the view
exactly when it holds for that number; and narrowing never increases the size,
so it keeps `size() <= max_size()`. -/
theorem size_le_max_size_amended (b : Build) (m : Mem) (s n : Nat) (str : std_basic_string)
    (v w : basic_string_view) :
    v.max_size = 2 ^ 63 - 1 ∧
    basic_string_view.default.size = 0 ∧
    ((basic_string_view.mk_ptr_len s n).size = n ∧
      ((basic_string_view.mk_ptr_len s n).size ≤ (basic_string_view.mk_ptr_len s n).max_size
        ↔ n ≤ 2 ^ 63 - 1)) ∧
    ((basic_string_view.mk_basic_string str).size = str.size_ ∧
      ((basic_string_view.mk_basic_string str).size
          ≤ (basic_string_view.mk_basic_string str).max_size
        ↔ str.size_ ≤ 2 ^ 63 - 1)) ∧
    (∀ L, s ≠ 0 → traits_type.length m s = some L →
      ∃ u, basic_string_view.mk_cstr m s = some u ∧ u.size = L ∧
        (u.size ≤ u.max_size ↔ L ≤ 2 ^ 63 - 1)) ∧
    (basic_string_view.narrows b v w → v.size ≤ v.max_size → w.size ≤ w.max_size) := by
  have hmax : basic_string_view.kMaxSize = 2 ^ 63 - 1 := rfl
  simp only [basic_string_view.max_size, basic_string_view.size, hmax]
  refine ⟨trivial, rfl, ⟨rfl, Iff.rfl⟩, ⟨rfl, Iff.rfl⟩, ?_, ?_⟩
  · intro L hs hlen
    refine ⟨⟨s, L⟩, ?_, rfl, Iff.rfl⟩
    simp [basic_string_view.mk_cstr, hs, hlen]
  · intro hnar hv
    have := (narrows_window b v w hnar).1
    omega

/-- Witness of C14, amended: a 10-unit view narrowed by `substr(2, 5)` stays
within `max_size()`. -/
theorem size_le_max_size_amended_witness :
    (basic_string_view.mk 102 5).size ≤ (basic_string_view.mk 102 5).max_size :=
  (size_le_max_size_amended Build.debug (Mem.ofList 100 []) 100 10 ⟨100, 10⟩
    (basic_string_view.mk 100 10) (basic_string_view.mk 102 5)).2.2.2.2.2
    (basic_string_view.narrows.step _ _ _ (basic_string_view.narrows.refl _)
      (basic_string_view.narrow_step.substr _ _ 2 5 rfl))
    (by simp [basic_string_view.size, basic_string_view.max_size, basic_string_view.kMaxSize,
      SIZE_BITS])

/-- C15: a view `w` reached from `v` by a finite sequence of successful `substr`
calls and of `remove_prefix` and `remove_suffix` calls with `n <= size()` lies
in the window of `v`: `w.size() <= v.size()`, `w.data() >= v.data()` and
`w.data() + w.size() <= v.data() + v.size()`. -/
theorem narrowing_stays_in_window (b : Build) (v w : basic_string_view)
    (h : basic_string_view.narrows b v w) :
    w.size ≤ v.size ∧ w.data ≥ v.data ∧ w.data + w.size ≤ v.data + v.size :=
  narrows_window b v w h

/-- Witness of C15: from a 10-unit view, `substr(2, 5)`, then
`remove_prefix(1)`, then `remove_suffix(2)` in a debug build. -/
theorem narrowing_stays_in_window_witness :
    (basic_string_view.mk 103 2).size ≤ (basic_string_view.mk 100 10).size ∧
    (basic_string_view.mk 103 2).data ≥ (basic_string_view.mk 100 10).data ∧
    (basic_string_view.mk 103 2).data + (basic_string_view.mk 103 2).size
      ≤ (basic_string_view.mk 100 10).data + (basic_string_view.mk 100 10).size :=
  have h1 : basic_string_view.narrows Build.debug (basic_string_view.mk 100 10)
      (basic_string_view.mk 102 5) :=
    basic_string_view.narrows.step _ _ _ (basic_string_view.narrows.refl _)
      (basic_string_view.narrow_step.substr _ _ 2 5 rfl)
  have h2 : basic_string_view.narrows Build.debug (basic_string_view.mk 100 10)
      (basic_string_view.mk 103 4) :=
    basic_string_view.narrows.step _ _ _ h1
      ( basic_string_view.narrow_step.remove_prefix _ _ 1 (by decide) rfl)
  have h3 : basic_string_view.narrows Build.debug (basic_string_view.mk 100 10)
      (basic_string_view.mk 103 2) :=
    basic_string_view.narrows.step _ _ _ h2
      (basic_string_view.narrow_step.remove_suffix _ _ 2 (by decide) rfl)
  narrowing_stays_in_window Build.debug (basic_string_view.mk 100 10)
    (basic_string_view.mk 103 2) h3

/-- Counterexample to C16: the constructor from a null-terminated sequence,
given the null pointer, does not fail: it returns the empty view. -/
theorem mk_cstr_null_counterexample :
    basic_string_view.mk_cstr (Mem.ofList 100 [97, 0]) 0 ≠ none ∧
    basic_string_view.mk_cstr (Mem.ofList 100 [97, 0]) 0 = some ⟨0, 0⟩ := by
  rw [mk_cstr_null]
  exact ⟨by simp, rfl⟩

/-- C16, amended: the constructor from a null-terminated sequence accepts the
null pointer: it reads no memory and returns the view with null reference and
size 0, the default view; it contains no assertion, so this is so in every
build. -/
theorem mk_cstr_null_is_default (m : Mem) :
    basic_string_view.mk_cstr m 0 = some basic_string_view.default ∧
    basic_string_view.default.data = 0 ∧ basic_string_view.default.size = 0 ∧
    basic_string_view.default.empty = true :=
  ⟨mk_cstr_null m, rfl, rfl, rfl⟩

/-! ## Conversion to an owning string -/

theorem units_from_length (m : Mem) (n : Nat) : ∀ p : Nat, (units_from m p n).length = n := by
  induction n with
  | zero => intro p; rfl
  | succ n ih => intro p; simp [units_from, ih]

theorem units_from_getElem? (m : Mem) (n : Nat) : ∀ p i : Nat, i < n →
    (units_from m p n)[i]? = some (m (p + i)) := by
  induction n with
  | zero => intro p i hi; omega
  | succ n ih =>
    intro p i hi
    cases i with
    | zero => simp [units_from]
    | succ i =>
      have := ih (p + 1) i (by omega)
      simpa [units_from, Nat.add_assoc, Nat.add_comm 1 i] using this

/-- Counterexample to C17: the view of `2 ^ 63` units at the non-null address
100 is not converted to a string of that length: the constructor of the owning
string raises `std::length_error`, both for a string `max_size()` of
`2 ^ 62 - 1` and for one of `2 ^ 63 - 1`. -/
theorem to_basic_string_length_error_counterexample :
    (basic_string_view.mk_ptr_len 100 (2 ^ 63)).data ≠ 0 ∧
    (basic_string_view.mk_ptr_len 100 (2 ^ 63)).to_basic_string (Mem.ofList 100 [97])
      (2 ^ 62 - 1) = Except.error Exception.LengthError ∧
    (basic_string_view.mk_ptr_len 100 (2 ^ 63)).to_basic_string (Mem.ofList 100 [97])
      (2 ^ 63 - 1) = Except.error Exception.LengthError ∧
    ¬ ∃ str : List Nat,
      (basic_string_view.mk_ptr_len 100 (2 ^ 63)).to_basic_string (Mem.ofList 100 [97])
        (2 ^ 62 - 1) = Except.ok str ∧
      str.length = (basic_string_view.mk_ptr_len 100 (2 ^ 63)).size := by
  have h1 : (basic_string_view.mk_ptr_len 100 (2 ^ 63)).to_basic_string (Mem.ofList 100 [97])
      (2 ^ 62 - 1) = Except.error Exception.LengthError := by
    simp [basic_string_view.to_basic_string, basic_string_view.mk_ptr_len,
      basic_string_view.data, basic_string_view.size, std_basic_string.mk_ptr_len]
  refine ⟨by simp [basic_string_view.mk_ptr_len, basic_string_view.data], h1, ?_, ?_⟩
  · simp [basic_string_view.to_basic_string, basic_string_view.mk_ptr_len,
      basic_string_view.data, basic_string_view.size, std_basic_string.mk_ptr_len]
  · rintro ⟨str, hstr, _⟩
    rw [h1] at hstr
    cases hstr

/-- C17, amended: the conversion to an owning string copies the window when the
window fits the string: for a non-null `v.data()` and `v.size()` at most the
`max_size()` of the owning string, the string has length `v.size()` and at
every index the unit of `v`; for a non-null `v.data()` and a larger `v.size()`
the conversion raises `std::length_error`; for a null `v.data()` it is the
empty string; and the view borrowed from an owning string `s` converts back to
a string with the units of `s`. -/
theorem to_basic_string_copies_window (v : basic_string_view) (m : Mem) (smax : Nat)
    (s : std_basic_string) :
    (v.data ≠ 0 → v.size ≤ smax →
      ∃ str, v.to_basic_string m smax = Except.ok str ∧ str.length = v.size ∧
        ∀ i, i < v.size → str[i]? = some (v.unit m i)) ∧
    (v.data ≠ 0 → v.size > smax →
      v.to_basic_string m smax = Except.error Exception.LengthError) ∧
    (v.data = 0 → v.to_basic_string m smax = Except.ok []) ∧
    (s.data_ ≠ 0 → s.size_ ≤ smax →
      (basic_string_view.mk_basic_string s).to_basic_string m smax
        = Except.ok (s.units m)) := by
  refine ⟨?_, ?_, ?_, ?_⟩
  · intro h hle
    have hn : ¬ v.size > smax := by omega
    refine ⟨units_from m v.data v.size, ?_, units_from_length m _ _, fun i hi => ?_⟩
    · simp only [basic_string_view.to_basic_string, if_neg h, std_basic_string.mk_ptr_len,
        if_neg hn]
    · exact units_from_getElem? m _ _ i hi
  · intro h hgt
    simp only [basic_string_view.to_basic_string, if_neg h, std_basic_string.mk_ptr_len,
      if_pos hgt]
  · intro h
    simp only [basic_string_view.to_basic_string, if_pos h]
  · intro h hle
    have hn : ¬ s.size_ > smax := by omega
    simp only [basic_string_view.to_basic_string, basic_string_view.mk_basic_string,
      basic_string_view.mk_ptr_len, basic_string_view.data, basic_string_view.size,
      std_basic_string.units, std_basic_string.mk_ptr_len, if_neg h, if_neg hn]

/-- Witness of C17, amended: the owning string "abc" stored at address 100,
with a string `max_size()` of `2 ^ 62 - 1`. -/
theorem to_basic_string_copies_window_witness :
    ((100 : Nat) ≠ 0 ∧ (3 : Nat) ≤ 2 ^ 62 - 1) ∧
    (basic_string_view.mk_basic_string ⟨100, 3⟩).to_basic_string (Mem.ofList 100 [97, 98, 99])
      (2 ^ 62 - 1) = Except.ok [97, 98, 99] :=
  ⟨⟨by decide, by decide⟩,
   (to_basic_string_copies_window (basic_string_view.mk 100 3) (Mem.ofList 100 [97, 98, 99])
    (2 ^ 62 - 1) ⟨100, 3⟩).2.2.2 (by decide) (by decide)⟩

/-! ## `compare` with an offset -/

/-- C18: `v.compare(pos, n, o)` signals OutOfRange exactly when
`pos > v.size()`; otherwise it returns what `v.substr(pos, n).compare(o)`
returns, the three-way order of the units of `v` at
`[pos, pos + min(n, v.size() - pos))` and the units of `o`. -/
theorem compare_sub_is_substr_compare (v : basic_string_view) (m : Mem) (pos n : Nat)
    (o : basic_string_view) :
    (v.compare_sub m pos n o
        = Except.error (Exception.OutOfRange "polly::string_view::substr")
      ↔ pos > v.size) ∧
    (pos ≤ v.size → ∃ w, v.substr pos n = Except.ok w ∧
      v.compare_sub m pos n o = Except.ok (w.compare m o) ∧
      w.compare m o
        = lex3 (units_from m (v.data + pos) (min n (v.size - pos)))
            (units_from m o.data o.size)) := by
  simp only [basic_string_view.size, basic_string_view.data]
  refine ⟨?_, ?_⟩
  · by_cases h : pos > v.len_
    · simp [basic_string_view.compare_sub, substr_of_gt v pos n h, h, Except.bind]
    · simp [basic_string_view.compare_sub, substr_of_le v pos n (by omega), h, Except.bind]
  · intro h
    refine ⟨_, substr_of_le v pos n h, ?_, ?_⟩
    · simp [basic_string_view.compare_sub, substr_of_le v pos n h, Except.bind]
    · rw [compare_eq_lex3]

/-- Witness of C18: on "abcabc", the 9 units asked for from position 3 are
clamped to "abc", which compares equal to the view "abc"; position 7 signals
OutOfRange. -/
theorem compare_sub_is_substr_compare_witness :
    (basic_string_view.mk 100 6).compare_sub (Mem.ofList 100 [97, 98, 99, 97, 98, 99]) 3 9
      (basic_string_view.mk 100 3) = Except.ok 0 ∧
    (basic_string_view.mk 100 6).compare_sub (Mem.ofList 100 [97, 98, 99, 97, 98, 99]) 7 9
      (basic_string_view.mk 100 3)
      = Except.error (Exception.OutOfRange "polly::string_view::substr") := by
  obtain ⟨w, hw, hc, _⟩ := (compare_sub_is_substr_compare (basic_string_view.mk 100 6)
    (Mem.ofList 100 [97, 98, 99, 97, 98, 99]) 3 9 (basic_string_view.mk 100 3)).2 (by decide)
  have hw' : w = ⟨103, 3⟩ := by
    have : (basic_string_view.mk 100 6).substr 3 9 = Except.ok ⟨103, 3⟩ := rfl
    rw [this] at hw
    simpa using hw.symm
  subst hw'
  refine ⟨?_, (compare_sub_is_substr_compare (basic_string_view.mk 100 6)
    (Mem.ofList 100 [97, 98, 99, 97, 98, 99]) 7 9 (basic_string_view.mk 100 3)).1.2
    (by decide)⟩
  rw [hc]
  exact congrArg Except.ok (by decide)

/-! ## Unchecked access -/

theorem assert_of_true (b : Build) (text : String) :
    POLLY_CONST_ASSERT b true text = Except.ok () := by
  cases b <;> simp [POLLY_CONST_ASSERT, POLLY_EXPECT_TRUE]

/-- C19: under their preconditions the unchecked accessors pass the assertion
in either build and return what `at` returns: `v[i]` is `v.at(i)` for
`i < v.size()`, and for a non-empty `v`, `v.front()` is `v.at(0)` and
`v.back()` is `v.at(v.size() - 1)`. The size of `v` is a `size_type` value. -/
theorem unchecked_agrees_with_at (v : basic_string_view) (b : Build) (m : Mem) (i : Nat)
    (hsize : v.size < SIZE_MOD) :
    (i < v.size → ∃ x, v.index b m i = Except.ok x ∧ v.at_ m i = Except.ok x) ∧
    (v.empty = false → ∃ x, v.front b m = Except.ok x ∧ v.at_ m 0 = Except.ok x) ∧
    (v.empty = false → ∃ x, v.back b m = Except.ok x ∧ v.at_ m (v.size - 1) = Except.ok x) := by
  simp only [basic_string_view.size, basic_string_view.empty] at hsize ⊢
  refine ⟨?_, ?_, ?_⟩
  · intro hi
    refine ⟨m (v.ptr_ + i), ?_, at_of_lt v m i hi⟩
    simp [basic_string_view.index, basic_string_view.size, hi, assert_of_true, Except.bind]
  · intro he
    have hne : v.len_ ≠ 0 := by simpa using he
    refine ⟨m (v.ptr_ + 0), ?_, at_of_lt v m 0 (by omega)⟩
    simp [basic_string_view.front, basic_string_view.empty, he, assert_of_true, Except.bind]
  · intro he
    have hne : v.len_ ≠ 0 := by simpa using he
    have hsub : size_sub v.len_ 1 = v.len_ - 1 := size_sub_of_le v.len_ 1 hsize (by omega)
    refine ⟨m (v.ptr_ + (v.len_ - 1)), ?_, at_of_lt v m _ (by omega)⟩
    simp [basic_string_view.back, basic_string_view.empty, basic_string_view.size, he, hsub,
      assert_of_true, Except.bind]

/-- Witness of C19: on the view "abc" in a debug build, `v[1]` is 98, `front()`
is 97 and `back()` is 99. -/
theorem unchecked_agrees_with_at_witness :
    (basic_string_view.mk 100 3).size < SIZE_MOD ∧
    (∃ x, (basic_string_view.mk 100 3).index Build.debug (Mem.ofList 100 [97, 98, 99]) 1
        = Except.ok x ∧
      (basic_string_view.mk 100 3).at_ (Mem.ofList 100 [97, 98, 99]) 1 = Except.ok x) ∧
    (∃ x, (basic_string_view.mk 100 3).back Build.debug (Mem.ofList 100 [97, 98, 99])
        = Except.ok x ∧
      (basic_string_view.mk 100 3).at_ (Mem.ofList 100 [97, 98, 99]) (3 - 1) = Except.ok x) :=
  ⟨by decide,
   (unchecked_agrees_with_at (basic_string_view.mk 100 3) Build.debug
      (Mem.ofList 100 [97, 98, 99]) 1 (by decide)).1 (by decide),
   (unchecked_agrees_with_at (basic_string_view.mk 100 3) Build.debug
      (Mem.ofList 100 [97, 98, 99]) 1 (by decide)).2.2 (by decide)⟩

/-- C20: in an `NDEBUG` build, `remove_suffix(n)` with `n > size()` does not
fail and does not clamp: the reference is unchanged and the new size is
`(size() - n) mod 2 ^ 64`, which is greater than the old size. Both `size()`
and `n` are `size_type` values. -/
theorem remove_suffix_wraps (v : basic_string_view) (n : Nat)
    (hsize : v.size < SIZE_MOD) (hn : n < SIZE_MOD) (hgt : n > v.size) :
    ∃ w, v.remove_suffix Build.ndebug n = Except.ok w ∧ w.data = v.data ∧
      (w.size : Int) = ((v.size : Int) - (n : Int)) % (2 : Int) ^ SIZE_BITS ∧
      w.size = v.size + 2 ^ SIZE_BITS - n ∧ w.size > v.size := by
  simp only [basic_string_view.size, basic_string_view.data] at hsize hgt ⊢
  have hsub := size_sub_of_gt v.len_ n hn hgt
  refine ⟨⟨v.ptr_, size_sub v.len_ n⟩, ?_, rfl, ?_, ?_, ?_⟩
  · simp [basic_string_view.remove_suffix, POLLY_CONST_ASSERT, Except.bind]
  · simp only [hsub, SIZE_MOD, SIZE_BITS] at hn hsize ⊢
    omega
  · simp only [hsub, SIZE_MOD]
  · simp only [hsub, SIZE_MOD, SIZE_BITS] at hn hsize ⊢
    omega

/-- Witness of C20: `remove_suffix(7)` on a 6-unit view leaves `2 ^ 64 - 1`
units. -/
theorem remove_suffix_wraps_witness :
    ((basic_string_view.mk 100 6).size < SIZE_MOD ∧ 7 < SIZE_MOD ∧
      7 > (basic_string_view.mk 100 6).size) ∧
    ∃ w, (basic_string_view.mk 100 6).remove_suffix Build.ndebug 7 = Except.ok w ∧
      w.data = (basic_string_view.mk 100 6).data ∧
      (w.size : Int) = (((basic_string_view.mk 100 6).size : Int) - (7 : Int))
        % (2 : Int) ^ SIZE_BITS ∧
      w.size = (basic_string_view.mk 100 6).size + 2 ^ SIZE_BITS - 7 ∧
      w.size > (basic_string_view.mk 100 6).size :=
  ⟨⟨by decide, by decide, by decide⟩,
   remove_suffix_wraps (basic_string_view.mk 100 6) 7 (by decide) (by decide) (by decide)⟩

end polly
